import Mathlib

set_option maxHeartbeats 1000000

namespace Toolbox

/-- Characters of a Python string value. -/
abbrev Chars := List Char

/-- A (marker, value) pair as produced by read_toolbox_file; the value is
none when the marker line had no content. -/
abbrev TPair := Chars × Option Chars

/-- Python whitespace characters (the ASCII part of the regex class used by
the Toolbox format; markers and values in this corpus are ASCII). -/
def isWsChar (c : Char) : Bool :=
  c == ' ' || c == '\t' || c == '\n' || c == '\r' || c == '\x0b' || c == '\x0c'

/-- Python str.rstrip on a character list: remove trailing whitespace. -/
def rstripL (s : Chars) : Chars :=
  (s.reverse.dropWhile isWsChar).reverse

/-- Concatenation of a list of character lists (Python ''.join). -/
def joinAll : List (List α) → List α
  | [] => []
  | x :: xs => x ++ joinAll xs

/-- Python ' '.join. -/
def joinSp : List Chars → Chars
  | [] => []
  | [x] => x
  | x :: y :: ys => x ++ ' ' :: joinSp (y :: ys)

/-- Python str.ljust: pad on the right with spaces to width n. -/
def ljust (s : Chars) (n : Nat) : Chars :=
  s ++ List.replicate (n - s.length) ' '

/-- One regex match of the default tokenizer: the match start offset and the
matched text (a nonempty run of non-whitespace plus any trailing
whitespace), mirroring re.Match.start() and .group(0). -/
structure Tok where
  start : Nat
  text : Chars
deriving DecidableEq, Repr

/-- Match end offset (re.Match.end()). -/
def Tok.endPos (t : Tok) : Nat := t.start + t.text.length

/-- Fuel-indexed scan for finditer of the default tokenizer regex. Fuel equal
to the length of the remaining input is always sufficient, because every
step consumes at least one character, so the function below is a total,
faithful model of the regex scan. -/
def tokenizeAux : Nat → Chars → Nat → List Tok
  | 0, _, _ => []
  | _ + 1, [], _ => []
  | fuel + 1, c :: rest, pos =>
    if isWsChar c then tokenizeAux fuel rest (pos + 1)
    else
      let core := c :: rest.takeWhile (fun x => !(isWsChar x))
      let afterCore := rest.drop (rest.takeWhile (fun x => !(isWsChar x))).length
      let ws := afterCore.takeWhile isWsChar
      ⟨pos, core ++ ws⟩ :: tokenizeAux fuel (afterCore.drop ws.length) (pos + core.length + ws.length)

/-- default_tokenizer = re.compile(r'\S+\s*'); list(default_tokenizer.finditer(s)). -/
def tokenize (s : Chars) : List Tok := tokenizeAux s.length s 0

/-- Exceptions that can escape align_fields: AttributeError from evaluating
None.keys(), and the ToolboxError raised for a possible misalignment. -/
inductive PyExc
  | attributeError
  | misalignment
deriving DecidableEq, Repr

/-- Inner while loop of _collect_aligned_tokens (src/toolbox.py lines
369-373): pop source tokens while the queue is nonempty and (remaining == 0
or the next source token starts before t_end). Returns the collected group
of trimmed source tokens, the remaining queue, and the updated last_end
(start of the popped token plus the length of its trimmed text). -/
def takeGroup (remaining tEnd : Nat) : List Tok → Int → (List Chars × List Tok × Int)
  | [], lastEnd => ([], [], lastEnd)
  | s :: ss, lastEnd =>
    if remaining = 0 ∨ s.start < tEnd then
      let sTok := rstripL s.text
      let r := takeGroup remaining tEnd ss ((s.start : Int) + sTok.length)
      (sTok :: r.1, r.2)
    else ([], s :: ss, lastEnd)

/-- Loop of _collect_aligned_tokens over the target tokens (src/toolbox.py
lines 359-374); i is the current target index, lti = len(tgt) - 1, lastEnd
the end position of the last consumed source token (initially -1). The
misalignment check raises only when errors == 'strict'; otherwise the
iteration continues. -/
def collectGo (errors : String) (lti : Nat) :
    List Tok → Nat → Int → List Tok → Except PyExc (List (Chars × List Chars))
  | [], _, _, _ => .ok []
  | t :: ts, i, lastEnd, src =>
    if lastEnd > (t.start : Int) ∧ errors = "strict" then
      .error .misalignment
    else
      let r := takeGroup (lti - i) t.endPos src lastEnd
      match collectGo errors lti ts (i + 1) r.2.2 r.2.1 with
      | .error e => .error e
      | .ok rest => .ok ((rstripL t.text, r.1) :: rest)

/-- _collect_aligned_tokens(src, tgt, marker=..., errors=...) (src/toolbox.py
lines 351-375). align_fields calls it without the errors argument (line
346), so from align_fields it always runs with the default 'strict'. -/
def collectAlignedTokens (src tgt : List Tok) (errors : String) :
    Except PyExc (List (Chars × List Chars)) :=
  collectGo errors (tgt.length - 1) tgt 0 (-1) src

/-- One output element of align_fields: (target_token, source_tokens). -/
abbrev AlignEntry := Option Chars × Option (List Chars)

/-- Association-list lookup, mirroring Python dict .get / subscript. -/
def lookupA [BEq κ] (l : List (κ × α)) (k : κ) : Option α :=
  (l.find? (fun p => p.1 == k)).map Prod.snd

/-- Association-list update, mirroring Python dict item assignment: replace
the value at an existing key, else append the new key at the end
(dict insertion order). -/
def asetA [DecidableEq κ] : List (κ × α) → κ → α → List (κ × α)
  | [], k, v => [(k, v)]
  | (k0, v0) :: rest, k, v =>
    if k0 = k then (k0, v) :: rest else (k0, v0) :: asetA rest k v

/-- Main loop of align_fields (src/toolbox.py lines 321-347). prev maps a
marker to its most recent tokenization. The errors parameter of
align_fields is never consulted here: the call to _collect_aligned_tokens
on line 346 does not forward it, so that call always uses 'strict'. A
source field whose target has no recorded tokenization is dropped from the
output (logging.warning plus continue, lines 340-345). -/
def alignGo (al : List (Chars × Chars)) (alignedFields : List Chars)
    (tokenizers : List (Chars × (Chars → List Tok))) :
    List TPair → List (Chars × List Tok) → Except PyExc (List (Chars × List AlignEntry))
  | [], _ => .ok []
  | (mkr, val) :: rest, prev =>
    let tok := (lookupA tokenizers mkr).getD tokenize
    match val with
    | none =>
      match alignGo al alignedFields tokenizers rest prev with
      | .error e => .error e
      | .ok out => .ok ((mkr, [(none, none)]) :: out)
    | some v =>
      if mkr ∈ alignedFields then
        let toks := tok v
        let prev2 := asetA prev mkr toks
        match lookupA al mkr with
        | none =>
          match alignGo al alignedFields tokenizers rest prev2 with
          | .error e => .error e
          | .ok out =>
            .ok ((mkr, [(some v, some (toks.map (fun t => rstripL t.text)))]) :: out)
        | some tgtMkr =>
          match lookupA prev2 tgtMkr with
          | none => alignGo al alignedFields tokenizers rest prev2
          | some tgtToks =>
            match collectAlignedTokens toks tgtToks "strict" with
            | .error e => .error e
            | .ok aligned =>
              match alignGo al alignedFields tokenizers rest prev2 with
              | .error e => .error e
              | .ok out =>
                .ok ((mkr, aligned.map (fun g => (some g.1, some g.2))) :: out)
      else
        match alignGo al alignedFields tokenizers rest prev with
        | .error e => .error e
        | .ok out => .ok ((mkr, [(none, some [v])]) :: out)

/-- align_fields (src/toolbox.py lines 257-348). Line 316 evaluates
alignments.keys() before the `alignments or []` default substitution on
line 317, so alignments=None raises AttributeError at once; otherwise
aligned_fields is the set of alignment keys and values. The errors
parameter is accepted but never used by the body. -/
def alignFields (pairs : List TPair) (alignments : Option (List (Chars × Chars)))
    (tokenizers : List (Chars × (Chars → List Tok))) (errors : String) :
    Except PyExc (List (Chars × List AlignEntry)) :=
  match alignments with
  | none => .error .attributeError
  | some al =>
    let alignedFields := al.map Prod.fst ++ al.map Prod.snd
    alignGo al alignedFields tokenizers pairs []

/-- Capture of the optional value group of toolbox_line_re
(r'(?P<mkr>\\[^\s]+)( (?P<val>.*\n?))?$') applied to the text after the
single separator space. `.*` cannot cross a newline and `$` matches at the
end of the line or just before a final newline, so the group matches when
the text has no newline, or exactly one final newline; when the text ends
in two newlines the capture stops after the first one (the `$` then matches
before the final newline). Anything else fails, making the whole line a
continuation line. -/
def valCapture (v : Chars) : Option Chars :=
  let a := v.takeWhile (fun c => c != '\n')
  let r := v.dropWhile (fun c => c != '\n')
  if r = [] then some v
  else if r = ['\n'] then some v
  else if r = ['\n', '\n'] then some (a ++ ['\n'])
  else none

/-- re.match of toolbox_line_re (src/toolbox.py line 29) against one line: a
backslash, a nonempty run of non-whitespace characters (the marker), then
either the end of the line (value absent) or a single space and the
captured value. Any other line is a continuation line (no match). -/
def lineMatch (line : Chars) : Option (Chars × Option Chars) :=
  match line with
  | [] => none
  | c :: rest =>
    if c = '\\' then
      let run := rest.takeWhile (fun x => !(isWsChar x))
      if run = [] then none
      else
        let rem := rest.dropWhile (fun x => !(isWsChar x))
        if rem = [] then some ('\\' :: run, none)
        else if rem = ['\n'] then some ('\\' :: run, none)
        else if rem.head? = some ' ' then
          (valCapture rem.tail).map (fun cap => ('\\' :: run, some cap))
        else none
    else none

/-- make_val inside read_toolbox_file (src/toolbox.py lines 46-52): a pair
whose accumulated value segments are exactly [None] has value None;
otherwise the segments are joined (None contributing an empty string) and
optionally right-stripped. -/
def makeVal (valLines : List (Option Chars)) (strip : Bool) : Option Chars :=
  if valLines = [none] then none
  else
    let v := joinAll (valLines.map (fun s => s.getD []))
    some (if strip then rstripL v else v)

/-- Scan loop of read_toolbox_file once a marker has been opened: a matching
line emits the pending pair and opens a new one; a non-matching line is
appended verbatim to the pending value segments; the final pending pair is
emitted at end of input. -/
def readToolboxGo (strip : Bool) : List Chars → Chars → List (Option Chars) → List TPair
  | [], mkr, valLines => [(mkr, makeVal valLines strip)]
  | line :: rest, mkr, valLines =>
    match lineMatch line with
    | some (m, v) => (mkr, makeVal valLines strip) :: readToolboxGo strip rest m [v]
    | none => readToolboxGo strip rest mkr (valLines ++ [some line])

/-- Leading phase of read_toolbox_file: before the first marker line,
non-matching lines are silently dropped (mkr is still None). -/
def readToolboxStart (strip : Bool) : List Chars → List TPair
  | [] => []
  | line :: rest =>
    match lineMatch line with
    | some (m, v) => readToolboxGo strip rest m [v]
    | none => readToolboxStart strip rest

/-- read_toolbox_file (src/toolbox.py lines 33-67) on the list of lines of
the input (each element one line, with its terminator when present). -/
def readToolboxFile (lines : List Chars) (strip : Bool) : List TPair :=
  readToolboxStart strip lines

/-- Events yielded by iterparse. Start/end events carry the marker rewritten
to its base form ('\\' ++ mkr[2:], src/toolbox.py lines 103-105). -/
inductive Event
  | key (m : Chars) (v : Option Chars)
  | bstart (m : Chars) (v : Option Chars)
  | bend (m : Chars) (v : Option Chars)
  | data (ps : List TPair)
deriving DecidableEq, Repr

/-- re.sub(r'\\(.*)', r'\+\1', k) / the same with '-': rewrite the first
backslash-led suffix by inserting the block character after the backslash.
Markers contain no newline, so the single match extends to the end of the
string. -/
def subEscape (c : Char) : Chars → Chars
  | [] => []
  | '\\' :: r => '\\' :: c :: r
  | x :: r => x :: subEscape c r

/-- Loop of iterparse (src/toolbox.py lines 94-110), with the pending data
batch accumulated in order. -/
def iterparseGo (keys startKeys endKeys : List Chars) :
    List TPair → List TPair → List Event
  | [], dataAcc => if dataAcc = [] then [] else [Event.data dataAcc]
  | (mkr, val) :: rest, dataAcc =>
    if mkr ∈ keys ∨ mkr ∈ startKeys ∨ mkr ∈ endKeys then
      let flushed : List Event := if dataAcc = [] then [] else [Event.data dataAcc]
      let ev : Event :=
        if mkr ∈ keys then Event.key mkr val
        else if mkr ∈ startKeys then Event.bstart ('\\' :: mkr.drop 2) val
        else Event.bend ('\\' :: mkr.drop 2) val
      flushed ++ ev :: iterparseGo keys startKeys endKeys rest []
    else iterparseGo keys startKeys endKeys rest (dataAcc ++ [(mkr, val)])

/-- iterparse(pairs, keys) (src/toolbox.py lines 70-110). -/
def iterparse (pairs : List TPair) (keys : List Chars) : List Event :=
  iterparseGo keys (keys.map (subEscape '+')) (keys.map (subEscape '-')) pairs []

/-- Rolling context of records: marker to last-seen value, in dict insertion
order (all tracked markers are present from initialization). -/
abbrev Ctx := List (Chars × Option Chars)

/-- Python dict read: context[k] as an Option (some iff k is tracked). -/
def ctxGet (ctx : Ctx) (k : Chars) : Option (Option Chars) :=
  lookupA ctx k

/-- context = dict((key, None) for key in keys). -/
def ctxInit (keys : List Chars) : Ctx := keys.map (fun k => (k, none))

/-- Context effect of one key event in records (src/toolbox.py lines
152-160): if the marker is in the hierarchy, reset it and every lower
marker to None (record_marker[idx:]), then store the new value; a marker
outside the hierarchy (index raises ValueError) just stores its value. -/
def stepKeyCtx (hier : List Chars) (ctx : Ctx) (m : Chars) (v : Option Chars) : Ctx :=
  let ctx1 :=
    match hier.findIdx? (fun x => x == m) with
    | some idx => (hier.drop idx).foldl (fun c k => asetA c k none) ctx
    | none => ctx
  asetA ctx1 m v

/-- Errors records can raise: the configuration ToolboxError for a record
marker that is neither a string nor a Sequence, and the ToolboxError for an
illegal (start/end) event inside a record stream. -/
inductive RecErr
  | config
  | illegalEvent
deriving DecidableEq, Repr

/-- The record_marker argument as the Python dynamic checks see it: a
string, any other Sequence (list, tuple, ...), or a non-Sequence value. -/
inductive RMArg
  | str (s : Chars)
  | seq (ms : List Chars)
  | other
deriving DecidableEq, Repr

/-- Event loop of records (src/toolbox.py lines 151-165): a key event
updates the rolling context, a data event yields a record, and any other
event raises. Returns the emission-time context snapshots together with the
yielded data, the final state of the rolling context, and the terminal
error if one was raised. -/
def runRecords (hier : List Chars) : List Event → Ctx →
    List (Ctx × List TPair) × Ctx × Option RecErr
  | [], ctx => ([], ctx, none)
  | Event.key m v :: rest, ctx => runRecords hier rest (stepKeyCtx hier ctx m v)
  | Event.data d :: rest, ctx =>
    let r := runRecords hier rest ctx
    ((ctx, d) :: r.1, r.2)
  | _ :: _, ctx => ([], ctx, some .illegalEvent)

/-- Hierarchy list records works with after its isinstance checks: a string
becomes a one-element list; any other Sequence is used as given (emptiness
is never checked); anything else is a configuration error. -/
def rmHier : RMArg → Option (List Chars)
  | .str s => some [s]
  | .seq ms => some ms
  | .other => none

/-- records(pairs, record_marker, context_keys) (src/toolbox.py lines
113-165), with context_keys already normalized to a list ([] for None).
keys is the union of the hierarchy markers and the context keys. -/
def recordsFn (pairs : List TPair) (rm : RMArg) (ck : List Chars) :
    List (Ctx × List TPair) × Ctx × Option RecErr :=
  match rmHier rm with
  | none => ([], [], some .config)
  | some hier =>
    let keys := (hier ++ ck).dedup
    runRecords hier (iterparse pairs keys) (ctxInit keys)

/-- Context state at the moment the n-th (0-based) data event fires, going
through the same steps as runRecords. -/
def ctxAtEmission (hier : List Chars) : List Event → Ctx → Nat → Option Ctx
  | [], _, _ => none
  | Event.key m v :: rest, ctx, n => ctxAtEmission hier rest (stepKeyCtx hier ctx m v) n
  | Event.data _ :: rest, ctx, n =>
    match n with
    | 0 => some ctx
    | n + 1 => ctxAtEmission hier rest ctx n
  | _ :: _, _, _ => none

/-- records yields the very same dict object `context` for every record
(src/toolbox.py line 162): all yielded records alias one mutable mapping.
Hence, once n records have been consumed, the context mapping read through
any previously yielded record is the rolling dict in its current state,
which is its state at the latest (the (n-1)-th, 0-based) emission. -/
def liveContextAfter (pairs : List TPair) (rm : RMArg) (ck : List Chars) (n : Nat) :
    Option Ctx :=
  match rmHier rm with
  | none => none
  | some hier =>
    let keys := (hier ++ ck).dedup
    ctxAtEmission hier (iterparse pairs keys) (ctxInit keys) (n - 1)

/-- Emission-time context snapshots of the records run (what an immediate
reader of each yielded record would observe before consuming further). -/
def recordsTrace (pairs : List TPair) (rm : RMArg) (ck : List Chars) :
    List (Ctx × List TPair) :=
  (recordsFn pairs rm ck).1

/-- True when the event is a key event for marker b. -/
def isKeyOf (b : Chars) : Event → Bool
  | Event.key m _ => m == b
  | _ => false

/-- State of the normalize_record gathering loop: field_data (values per
marker, insertion-ordered) and maxlens (longest aligned value per
position). -/
structure NormSt where
  fd : List (Chars × List Chars)
  ml : List (Nat × Nat)
deriving DecidableEq, Repr

/-- Association update on Nat keys (the maxlens dict). -/
def msetA (l : List (Nat × Nat)) (k v : Nat) : List (Nat × Nat) :=
  asetA l k v

/-- maxlens.get(i, -1) compared against a length: some stored value, or none
(every length exceeds the -1 default). -/
def mgetA (l : List (Nat × Nat)) (k : Nat) : Option Nat :=
  lookupA l k

/-- Append a value to the list stored for marker m in field_data
(field_data[mkr].append(val); the marker is always registered first). -/
def fdAppend : List (Chars × List Chars) → Chars → Chars → List (Chars × List Chars)
  | [], m, v => [(m, [v])]
  | (k, d) :: rest, m, v =>
    if k = m then (k, d ++ [v]) :: rest else (k, d) :: fdAppend rest m v

/-- Markers registered in field_data, in insertion order. -/
def fdKeys (fd : List (Chars × List Chars)) : List Chars := fd.map Prod.fst

/-- Values stored for marker m (field_data[mkr]). -/
def fdGet (fd : List (Chars × List Chars)) (m : Chars) : List Chars :=
  (lookupA fd m).getD []

/-- Gathering step of normalize_record (src/toolbox.py lines 230-240): a
first occurrence registers the marker; a None value is skipped entirely; a
non-None value is appended and, for an aligned marker, bumps the maximum
length recorded for its (filtered) position. -/
def normStep (af : List Chars) (st : NormSt) (p : TPair) : NormSt :=
  let st1 : NormSt :=
    if p.1 ∈ fdKeys st.fd then st else ⟨st.fd ++ [(p.1, [])], st.ml⟩
  match p.2 with
  | none => st1
  | some v =>
    let fd2 := fdAppend st1.fd p.1 v
    let i := (fdGet fd2 p.1).length - 1
    let bump : Bool :=
      match mgetA st1.ml i with
      | none => true
      | some l => decide (l < v.length)
    if p.1 ∈ af ∧ bump = true then ⟨fd2, msetA st1.ml i v.length⟩
    else ⟨fd2, st1.ml⟩

/-- Joining phase of normalize_record (src/toolbox.py lines 242-253) for one
marker: no gathered values yield None; an aligned marker pads each value to
the recorded maximum for its position before joining with single spaces
(every position of an aligned marker has a recorded maximum, so the
default of the lookup is never exercised); an unaligned marker joins its
values directly; strip right-strips the joined value. -/
def joinField (af : List Chars) (strip : Bool) (ml : List (Nat × Nat))
    (m : Chars) (data : List Chars) : Option Chars :=
  if data = [] then none
  else
    let joined :=
      if m ∈ af then joinSp (data.enum.map (fun p => ljust p.2 ((mgetA ml p.1).getD 0)))
      else joinSp data
    some (if strip then rstripL joined else joined)

/-- normalize_record(pairs, aligned_fields, strip) (src/toolbox.py lines
194-254). -/
def normalizeRecord (pairs : List TPair) (af : List Chars) (strip : Bool) :
    List TPair :=
  let st := pairs.foldl (normStep af) ⟨[], []⟩
  st.fd.map (fun p => (p.1, joinField af strip st.ml p.1 p.2))

/-- Gather every occurrence of each marker, None values included, in
first-seen marker order (spec-side reading, for comparison with the
source's gathering loop which drops None values). -/
def occAppend : List (Chars × List (Option Chars)) → Chars → Option Chars →
    List (Chars × List (Option Chars))
  | [], m, v => [(m, [v])]
  | (k, d) :: rest, m, v =>
    if k = m then (k, d ++ [v]) :: rest else (k, d) :: occAppend rest m v

/-- All occurrences of each marker in order, None values kept in place. -/
def gatherAllOcc (pairs : List TPair) : List (Chars × List (Option Chars)) :=
  pairs.foldl (fun acc p => occAppend acc p.1 p.2) []

/-- Longest non-None value of an aligned marker at positional slot i, over
the unfiltered occurrence lists (None occurrences are skipped for the
padding computation but hold their slot). -/
def slotMax (af : List Chars) (occ : List (Chars × List (Option Chars))) (i : Nat) : Nat :=
  (occ.map (fun e =>
    if e.1 ∈ af then
      match e.2.get? i with
      | some (some v) => v.length
      | _ => 0
    else 0)).foldr max 0

/-- Spec-side normalization (spec section 4.4, the reading under test in
C7): collect each marker's values in occurrence order, skipping None values
when computing padding but preserving their positional slot as a blank in
the joined output; a marker with zero non-None occurrences yields None. -/
def normalizeRecordSlotSpec (pairs : List TPair) (af : List Chars) (strip : Bool) :
    List TPair :=
  let occ := gatherAllOcc pairs
  occ.map (fun e =>
    if e.2.filterMap id = [] then (e.1, none)
    else
      let joined :=
        if e.1 ∈ af then
          joinSp (e.2.enum.map (fun p => ljust (p.2.getD []) (slotMax af occ p.1)))
        else joinSp (e.2.map (fun o => o.getD []))
      (e.1, some (if strip then rstripL joined else joined)))

/-- Total number of source tokens distributed across the emitted groups of
one _collect_aligned_tokens result. -/
def sumGroups (res : List (Chars × List Chars)) : Nat :=
  (res.map (fun g => g.2.length)).sum

/-- Total number of source tokens in the alignment entries that an
align_fields result emits for marker m. -/
def alignedSrcTotal (out : List (Chars × List AlignEntry)) (m : Chars) : Nat :=
  (((lookupA out m).getD []).map (fun e => (e.2.getD []).length)).sum

/-- Reconstruction of one pair's raw text in the sense of claim C6: the
marker, plus the separator and the value when the value is present
(continuation lines, their terminators included, already live verbatim
inside the value). -/
def reconPair : TPair → Chars
  | (m, none) => m
  | (m, some v) => m ++ ' ' :: v

/-- Concatenated reconstruction of a scanned pair list. -/
def reconText (ps : List TPair) : Chars := joinAll (ps.map reconPair)

/-- True when the line is not a marker line with an absent value: either a
continuation line, or a marker line carrying a separator and value. -/
def valuedLine (l : Chars) : Bool :=
  match lineMatch l with
  | some (_, none) => false
  | _ => true

/-- True for a line as produced by Python file line iteration: any newline
is the final character. -/
def wfLine (l : Chars) : Bool := !(l.dropLast.contains '\n')

theorem lookupA_asetA_self {κ α : Type} [DecidableEq κ] [BEq κ] [LawfulBEq κ]
    (l : List (κ × α)) (k : κ) (v : α) :
    lookupA (asetA l k v) k = some v := by
  induction l with
  | nil => simp [asetA, lookupA, List.find?]
  | cons p rest ih =>
    obtain ⟨k0, v0⟩ := p
    by_cases h : k0 = k
    · subst h
      simp [asetA, lookupA, List.find?]
    · have hb : (k0 == k) = false := beq_eq_false_iff_ne.mpr h
      simp [asetA, lookupA, List.find?, h, hb] at ih ⊢
      exact ih

theorem lookupA_asetA_ne {κ α : Type} [DecidableEq κ] [BEq κ] [LawfulBEq κ]
    (l : List (κ × α)) (k m : κ) (v : α) (h : m ≠ k) :
    lookupA (asetA l k v) m = lookupA l m := by
  induction l with
  | nil =>
    have hb : (k == m) = false := beq_eq_false_iff_ne.mpr (Ne.symm h)
    simp [asetA, lookupA, List.find?, hb]
  | cons p rest ih =>
    obtain ⟨k0, v0⟩ := p
    by_cases h0 : k0 = k
    · subst h0
      have hb : (k0 == m) = false := beq_eq_false_iff_ne.mpr (fun e => h e.symm)
      simp [asetA, lookupA, List.find?, hb]
    · by_cases h1 : k0 = m
      · subst h1
        simp [asetA, lookupA, List.find?, h0]
      · have hb : (k0 == m) = false := beq_eq_false_iff_ne.mpr h1
        simp [asetA, lookupA, List.find?, h0, hb] at ih ⊢
        exact ih

/-- Seeing the higher marker A runs the reset loop over [A, B], so B's
context entry ends at None whatever it was before. -/
theorem stepKeyCtx_A_resets (A B : Chars) (hAB : A ≠ B)
    (ctx : Ctx) (v : Option Chars) :
    ctxGet (stepKeyCtx [A, B] ctx A v) B = some none := by
  have : ([A, B].findIdx? (fun x => x == A)) = some 0 := by simp [List.findIdx?]
  simp only [stepKeyCtx, this, List.drop_zero, List.foldl]
  rw [show (ctxGet (asetA (asetA (asetA ctx A none) B none) A v) B =
      lookupA (asetA (asetA (asetA ctx A none) B none) A v) B) from rfl]
  rw [lookupA_asetA_ne _ _ _ _ (Ne.symm hAB)]
  exact lookupA_asetA_self _ _ _

/-- Context effect of a key event whose marker is not B leaves an
already-reset B at None (the reset loop only writes None into B, and the
final store writes a different key). -/
theorem stepKeyCtx_keeps_reset (A B m : Chars) (hAB : A ≠ B) (hm : m ≠ B)
    (ctx : Ctx) (v : Option Chars) (hc : ctxGet ctx B = some none) :
    ctxGet (stepKeyCtx [A, B] ctx m v) B = some none := by
  by_cases hA : m = A
  · subst hA
    exact stepKeyCtx_A_resets m B hAB ctx v
  · have hbA : (A == m) = false := beq_eq_false_iff_ne.mpr (fun e => hA e.symm)
    have hbB : (B == m) = false := beq_eq_false_iff_ne.mpr (fun e => hm e.symm)
    have : ([A, B].findIdx? (fun x => x == m)) = none := by
      simp [List.findIdx?, hbA, hbB]
    simp only [stepKeyCtx, this]
    rw [show (ctxGet (asetA ctx m v) B = lookupA (asetA ctx m v) B) from rfl]
    rw [lookupA_asetA_ne _ _ _ _ (Ne.symm hm)]
    exact hc

/-- C5: hierarchy reset dynamics of records for hierarchy [A, B]. Seeing A
resets B's context value to None; seeing B leaves A's context unchanged; a
key for a marker outside the hierarchy updates only its own entry (no
reset); and once B is None it stays None through any run of events that
contains no key event for B. -/
theorem records_hierarchy_reset (A B : Chars) (hAB : A ≠ B) :
    (∀ (ctx : Ctx) (v : Option Chars), ctxGet (stepKeyCtx [A, B] ctx A v) B = some none)
    ∧ (∀ (ctx : Ctx) (v : Option Chars), ctxGet (stepKeyCtx [A, B] ctx B v) A = ctxGet ctx A)
    ∧ (∀ (ctx : Ctx) (m k : Chars) (v : Option Chars), m ∉ ([A, B] : List Chars) → k ≠ m →
        ctxGet (stepKeyCtx [A, B] ctx m v) k = ctxGet ctx k)
    ∧ (∀ (events : List Event) (ctx : Ctx), ctxGet ctx B = some none →
        events.all (fun e => !(isKeyOf B e)) = true →
        ctxGet (runRecords [A, B] events ctx).2.1 B = some none) := by
  refine ⟨?_, ?_, ?_, ?_⟩
  · intro ctx v
    exact stepKeyCtx_A_resets A B hAB ctx v
  · intro ctx v
    have hb : (A == B) = false := beq_eq_false_iff_ne.mpr hAB
    have : ([A, B].findIdx? (fun x => x == B)) = some 1 := by simp [List.findIdx?, hb]
    simp only [stepKeyCtx, this, List.drop, List.foldl]
    rw [show (ctxGet (asetA (asetA ctx B none) B v) A =
        lookupA (asetA (asetA ctx B none) B v) A) from rfl]
    rw [lookupA_asetA_ne _ _ _ _ hAB, lookupA_asetA_ne _ _ _ _ hAB]
    rfl
  · intro ctx m k v hm hk
    have hmA : m ≠ A := fun e => hm (by rw [e]; exact List.mem_cons_self _ _)
    have hmB : m ≠ B := fun e => hm (by rw [e]; exact List.mem_cons_of_mem _ (List.mem_cons_self _ _))
    have hbA : (A == m) = false := beq_eq_false_iff_ne.mpr (fun e => hmA e.symm)
    have hbB : (B == m) = false := beq_eq_false_iff_ne.mpr (fun e => hmB e.symm)
    have : ([A, B].findIdx? (fun x => x == m)) = none := by simp [List.findIdx?, hbA, hbB]
    simp only [stepKeyCtx, this]
    rw [show (ctxGet (asetA ctx m v) k = lookupA (asetA ctx m v) k) from rfl]
    rw [lookupA_asetA_ne _ _ _ _ hk]
    rfl
  · intro events
    induction events with
    | nil => intro ctx hc _; exact hc
    | cons e rest ih =>
      intro ctx hc hall
      simp only [List.all_cons, Bool.and_eq_true] at hall
      obtain ⟨he, hrest⟩ := hall
      cases e with
      | key m v =>
        have hm : m ≠ B := by
          simp [isKeyOf] at he
          exact fun e2 => he (by rw [e2])
        exact ih (stepKeyCtx [A, B] ctx m v)
          (stepKeyCtx_keeps_reset A B m hAB hm ctx v hc) hrest
      | data d =>
        simp only [runRecords]
        exact ih ctx hc hrest
      | bstart m v => exact hc
      | bend m v => exact hc

/-- C1: at a backward-overlapping input, align_fields raises the
misalignment ToolboxError even with errors='lenient', because it never
forwards its errors argument to _collect_aligned_tokens (src/toolbox.py
line 346), which then runs with its own default 'strict'; this contradicts
the align_fields docstring, which promises that non-strict errors are
ignored. The third conjunct evaluates _collect_aligned_tokens itself with
errors='lenient' at the same tokens and shows the intended non-raising
result. -/
theorem align_fields_lenient_still_raises :
    alignFields [("\\t".toList, some "ab cd".toList), ("\\m".toList, some "abcde f".toList)]
        (some [("\\m".toList, "\\t".toList)]) [] "lenient" = .error .misalignment
    ∧ alignFields [("\\t".toList, some "ab cd".toList), ("\\m".toList, some "abcde f".toList)]
        (some [("\\m".toList, "\\t".toList)]) [] "strict" = .error .misalignment
    ∧ collectAlignedTokens (tokenize "abcde f".toList) (tokenize "ab cd".toList) "lenient"
        = .ok [("ab".toList, ["abcde".toList]), ("cd".toList, ["f".toList])] :=
  ⟨rfl, rfl, rfl⟩

/-- C10: align_fields called with alignments=None raises AttributeError
before consuming any pair — set(alignments.keys()) on src/toolbox.py line
316 runs before the `alignments or []` default substitution on line 317 —
so it never returns a list of (None, [value]) entries for this argument. -/
theorem align_fields_none_alignments_attribute_error
    (pairs : List TPair) (tokenizers : List (Chars × (Chars → List Tok)))
    (errors : String) :
    alignFields pairs none tokenizers errors = .error .attributeError := rfl

/-- C3, counterexample: at the claim's exact single-spaced input, the code
does not emit the six gloss entries: aligning the \m tier against the \t
tier hits the strict overlap check (the trimmed source token '-hiki' ends
at offset 18, past the start offset 14 of the target token 'hoeru'), so
align_fields raises the misalignment ToolboxError instead of returning. -/
theorem align_fields_gloss_scenario_cex :
    alignFields [("\\t".toList, some "inu=ga ippiki hoeru".toList),
        ("\\m".toList, some "inu =ga ichi -hiki hoe -ru".toList),
        ("\\g".toList, some "dog =NOM one -CLF.ANIMAL bark -IPFV".toList),
        ("\\f".toList, some "One dog barks.".toList)]
      (some [("\\m".toList, "\\t".toList), ("\\g".toList, "\\m".toList)]) [] "strict"
    = .error .misalignment := rfl

/-- C3, amended: with the column-padded tier values (the layout of the
align_fields docstring example, in which token offsets line up across
tiers), align_fields emits for \g exactly the six entries (inu,[dog]),
(=ga,[=NOM]), (ichi,[one]), (-hiki,[-CLF.ANIMAL]), (hoe,[bark]),
(-ru,[-IPFV]), and for \f the single unaligned entry
(None, ["One dog barks."]). -/
theorem align_fields_gloss_scenario_padded :
    alignFields [("\\t".toList, some "inu=ga   ippiki           hoeru     ".toList),
        ("\\m".toList, some "inu =ga  ichi -hiki       hoe  -ru  ".toList),
        ("\\g".toList, some "dog =NOM one  -CLF.ANIMAL bark -IPFV".toList),
        ("\\f".toList, some "One dog barks.".toList)]
      (some [("\\m".toList, "\\t".toList), ("\\g".toList, "\\m".toList)]) [] "strict"
    = .ok [("\\t".toList,
            [(some "inu=ga   ippiki           hoeru     ".toList,
              some ["inu=ga".toList, "ippiki".toList, "hoeru".toList])]),
           ("\\m".toList,
            [(some "inu=ga".toList, some ["inu".toList, "=ga".toList]),
             (some "ippiki".toList, some ["ichi".toList, "-hiki".toList]),
             (some "hoeru".toList, some ["hoe".toList, "-ru".toList])]),
           ("\\g".toList,
            [(some "inu".toList, some ["dog".toList]),
             (some "=ga".toList, some ["=NOM".toList]),
             (some "ichi".toList, some ["one".toList]),
             (some "-hiki".toList, some ["-CLF.ANIMAL".toList]),
             (some "hoe".toList, some ["bark".toList]),
             (some "-ru".toList, some ["-IPFV".toList])]),
           ("\\f".toList, [(none, some ["One dog barks.".toList])])] := rfl

/-- C4, counterexample: a source field whose target tier tokenizes to zero
tokens (a whitespace-only target value) is aligned without error or
warning, yet every source token is dropped: the \m field's entry list is
empty, so the total of source tokens across its groups is 0 while its
value tokenizes to 2 tokens. -/
theorem align_token_conservation_cex :
    alignFields [("\\t".toList, some "   ".toList), ("\\m".toList, some "a b".toList)]
        (some [("\\m".toList, "\\t".toList)]) [] "strict"
      = .ok [("\\t".toList, [(some "   ".toList, some [])]), ("\\m".toList, [])]
    ∧ alignedSrcTotal [("\\t".toList, [(some "   ".toList, some [])]), ("\\m".toList, [])]
        "\\m".toList ≠ (tokenize "a b".toList).length :=
  ⟨rfl, by decide⟩

/-- C2, counterexample: the two records of this input are emitted under
different rolling contexts (\ref maps to r1 at the first emission and to
r2 at the second), yet because records yields the very same dict object
each time (src/toolbox.py line 162), after both records have been consumed
the context read through the first record is the state at the second
emission, not the first record's own emission-time mapping: previously
emitted records do not keep an unchanged snapshot, and the two records
expose the same mapping rather than different ones. -/
theorem records_context_snapshot_cex :
    (((recordsTrace [("\\ref".toList, some "r1".toList), ("\\t".toList, some "a".toList),
        ("\\ref".toList, some "r2".toList), ("\\t".toList, some "b".toList)]
        (.str "\\ref".toList) []).get? 0).map Prod.fst
      ≠ ((recordsTrace [("\\ref".toList, some "r1".toList), ("\\t".toList, some "a".toList),
        ("\\ref".toList, some "r2".toList), ("\\t".toList, some "b".toList)]
        (.str "\\ref".toList) []).get? 1).map Prod.fst)
    ∧ liveContextAfter [("\\ref".toList, some "r1".toList), ("\\t".toList, some "a".toList),
        ("\\ref".toList, some "r2".toList), ("\\t".toList, some "b".toList)]
        (.str "\\ref".toList) [] 2
      = ((recordsTrace [("\\ref".toList, some "r1".toList), ("\\t".toList, some "a".toList),
        ("\\ref".toList, some "r2".toList), ("\\t".toList, some "b".toList)]
        (.str "\\ref".toList) []).get? 1).map Prod.fst :=
  ⟨by decide, by decide⟩

/-- C7, counterexample: the source drops None occurrences entirely instead
of keeping their positional slot as a blank. For \t with raw occurrences
[None, "b"], the code pads "b" at filtered position 0 (against "aaaa") and
outputs "b", whereas the slot-preserving reading of the spec keeps slot 0
blank and outputs "     b"; the two disagree at this input. -/
theorem normalize_record_none_slot_cex :
    normalizeRecord [("\\t".toList, none), ("\\t".toList, some "b".toList),
        ("\\m".toList, some "aaaa".toList), ("\\m".toList, some "c".toList)]
        ["\\t".toList, "\\m".toList] true
    ≠ normalizeRecordSlotSpec [("\\t".toList, none), ("\\t".toList, some "b".toList),
        ("\\m".toList, some "aaaa".toList), ("\\m".toList, some "c".toList)]
        ["\\t".toList, "\\m".toList] true := by decide

/-- C8, counterexample: an empty sequence as record_marker is not rejected
— isinstance([], Sequence) holds, so the configuration check passes and
records yields a record with an empty context instead of raising before
any record is emitted. -/
theorem records_empty_seq_accepted_cex :
    recordsFn [("\\a".toList, some "x".toList)] (.seq []) []
      = ([([], [("\\a".toList, some "x".toList)])], [], none) := rfl

/-- C6, counterexample: a marker line with no value followed by a
continuation line breaks the byte-for-byte round trip: the input
"\m\ncont\n" scans to the single pair (\m, "cont\n"), whose
reconstruction "\m cont\n" inserts a separator that was never in the input
and loses the newline after the marker. (The same pair also arises from
the one-line input "\m cont\n", so no reconstruction of pairs can restore
both originals.) -/
theorem read_toolbox_roundtrip_cex :
    reconText (readToolboxFile ["\\m\n".toList, "cont\n".toList] false)
      ≠ joinAll ["\\m\n".toList, "cont\n".toList] := by decide

/-- C5 witness: the reset dynamics at the concrete hierarchy [\id, \ref]:
seeing \id resets \ref; seeing \ref leaves \id alone; a \page key (outside
the hierarchy) resets nothing; and \ref stays None through a run with no
\ref key. -/
theorem records_hierarchy_reset_wit :
    ctxGet (stepKeyCtx ["\\id".toList, "\\ref".toList]
        [("\\id".toList, some "i1".toList), ("\\ref".toList, some "r1".toList)]
        "\\id".toList (some "i2".toList)) "\\ref".toList = some none
    ∧ ctxGet (stepKeyCtx ["\\id".toList, "\\ref".toList]
        [("\\id".toList, some "i1".toList), ("\\ref".toList, some "r1".toList)]
        "\\ref".toList (some "r2".toList)) "\\id".toList
      = ctxGet [("\\id".toList, some "i1".toList), ("\\ref".toList, some "r1".toList)]
          "\\id".toList
    ∧ ctxGet (stepKeyCtx ["\\id".toList, "\\ref".toList]
        [("\\id".toList, some "i1".toList), ("\\ref".toList, some "r1".toList)]
        "\\page".toList (some "p1".toList)) "\\ref".toList
      = ctxGet [("\\id".toList, some "i1".toList), ("\\ref".toList, some "r1".toList)]
          "\\ref".toList
    ∧ ctxGet (runRecords ["\\id".toList, "\\ref".toList]
        [Event.key "\\id".toList (some "i2".toList),
         Event.data [("\\t".toList, some "x".toList)]]
        [("\\id".toList, some "i1".toList), ("\\ref".toList, none)]).2.1 "\\ref".toList
      = some none := by
  have h := records_hierarchy_reset "\\id".toList "\\ref".toList (by decide)
  exact ⟨h.1 _ _, h.2.1 _ _, h.2.2.1 _ _ _ _ (by decide) (by decide),
    h.2.2.2 _ _ (by decide) (by decide)⟩

/-- C2, amended: records yields one shared mutable context dict, so after
n + 1 records have been consumed the mapping read through every previously
emitted record is the rolling context at the latest emission, not the
record's own emission-time snapshot: the context at the n-th data event is
exactly the n-th emission snapshot of the trace. -/
theorem records_live_context_eq_latest_emission (hier : List Chars)
    (events : List Event) (ctx : Ctx) (n : Nat) (c : Ctx) (d : List TPair)
    (h : (runRecords hier events ctx).1.get? n = some (c, d)) :
    ctxAtEmission hier events ctx n = some c := by
  induction events generalizing ctx n with
  | nil => simp [runRecords] at h
  | cons e rest ih =>
    cases e with
    | key m v =>
      simp only [runRecords] at h
      exact ih (stepKeyCtx hier ctx m v) n h
    | data dd =>
      simp only [runRecords] at h
      cases n with
      | zero =>
        simp only [List.get?_cons_zero, Option.some.injEq] at h
        simp [ctxAtEmission, (Prod.mk.injEq _ _ _ _).mp h]
      | succ n =>
        simp only [List.get?_cons_succ] at h
        exact ih ctx n h
    | bstart m v => simp [runRecords] at h
    | bend m v => simp [runRecords] at h

/-- C2 witness: at the concrete two-record input, the context read through
any record once both records are consumed is the second emission snapshot
(in which \ref maps to r2). -/
theorem records_live_context_eq_latest_emission_wit :
    ctxAtEmission ["\\ref".toList]
      (iterparse [("\\ref".toList, some "r1".toList), ("\\t".toList, some "a".toList),
        ("\\ref".toList, some "r2".toList), ("\\t".toList, some "b".toList)] ["\\ref".toList])
      (ctxInit ["\\ref".toList]) 1 = some [("\\ref".toList, some "r2".toList)] :=
  records_live_context_eq_latest_emission ["\\ref".toList] _ _ 1
    [("\\ref".toList, some "r2".toList)] [("\\t".toList, some "b".toList)] rfl

/-- The event loop of records can only raise the illegal-event error, never
the configuration error. -/
theorem runRecords_no_config (hier : List Chars) (events : List Event) (ctx : Ctx) :
    (runRecords hier events ctx).2.2 ≠ some RecErr.config := by
  induction events generalizing ctx with
  | nil => simp [runRecords]
  | cons e rest ih =>
    cases e with
    | key m v => exact ih _
    | data d =>
      simp only [runRecords]
      exact ih _
    | bstart m v => simp [runRecords]
    | bend m v => simp [runRecords]

/-- C8, amended: records raises its configuration ToolboxError exactly when
record_marker is neither a string nor a sequence. Emptiness is never
checked: an empty sequence passes the isinstance tests and records
proceeds (and a string or any sequence never triggers this error). -/
theorem records_config_error_iff_other (pairs : List TPair) (rm : RMArg) (ck : List Chars) :
    (recordsFn pairs rm ck).2.2 = some RecErr.config ↔ rm = RMArg.other := by
  cases rm with
  | str s =>
    constructor
    · intro h
      exact absurd h (runRecords_no_config _ _ _)
    · intro h
      simp at h
  | seq ms =>
    constructor
    · intro h
      exact absurd h (runRecords_no_config _ _ _)
    · intro h
      simp at h
  | other => simp [recordsFn, rmHier]

/-- C8 witness: the configuration error instance at a non-sequence
argument. -/
theorem records_config_error_iff_other_wit :
    (recordsFn [] RMArg.other []).2.2 = some RecErr.config :=
  (records_config_error_iff_other [] RMArg.other []).mpr rfl

/-- takeGroup with remaining = 0 consumes the entire queue (the last target
absorbs all leftover source tokens). -/
theorem takeGroup_zero (tEnd : Nat) (src : List Tok) (le : Int) :
    (takeGroup 0 tEnd src le).1.length = src.length
    ∧ (takeGroup 0 tEnd src le).2.1 = [] := by
  induction src generalizing le with
  | nil => simp [takeGroup]
  | cons s ss ih =>
    simp only [takeGroup, if_pos (Or.inl rfl)]
    obtain ⟨h1, h2⟩ := ih ((s.start : Int) + (rstripL s.text).length)
    exact ⟨by simp [h1], h2⟩

/-- takeGroup splits the queue: group length plus leftover length equals
the queue length. -/
theorem takeGroup_split (remaining tEnd : Nat) (src : List Tok) (le : Int) :
    (takeGroup remaining tEnd src le).1.length
      + (takeGroup remaining tEnd src le).2.1.length = src.length := by
  induction src generalizing le with
  | nil => simp [takeGroup]
  | cons s ss ih =>
    by_cases h : remaining = 0 ∨ s.start < tEnd
    · simp only [takeGroup, if_pos h, List.length_cons]
      have := ih ((s.start : Int) + (rstripL s.text).length)
      omega
    · simp [takeGroup, if_neg h]

/-- Core conservation run of _collect_aligned_tokens: on a nonempty target
suffix whose index satisfies the loop invariant i + |ts| = lti + 1, a
successful run distributes exactly the queued source tokens. -/
theorem collectGo_conserves (e : String) (lti : Nat) :
    ∀ (ts : List Tok) (i : Nat) (le : Int) (src : List Tok)
      (res : List (Chars × List Chars)),
    i + ts.length = lti + 1 → ts ≠ [] →
    collectGo e lti ts i le src = .ok res →
    sumGroups res = src.length := by
  intro ts
  induction ts with
  | nil => intro i le src res _ hne; exact absurd rfl hne
  | cons t ts ih =>
    intro i le src res hinv _ h
    simp only [collectGo] at h
    by_cases hov : le > (t.start : Int) ∧ e = "strict"
    · rw [if_pos hov] at h
      exact absurd h (by simp)
    · rw [if_neg hov] at h
      cases hrec : collectGo e lti ts (i + 1) (takeGroup (lti - i) t.endPos src le).2.2
          (takeGroup (lti - i) t.endPos src le).2.1 with
      | error e2 => rw [hrec] at h; exact absurd h (by simp)
      | ok rest =>
        rw [hrec] at h
        simp only [Except.ok.injEq] at h
        subst h
        cases ts with
        | nil =>
          simp only [collectGo, Except.ok.injEq] at hrec
          subst hrec
          have hi : i = lti := by simp at hinv; omega
          obtain ⟨hz1, hz2⟩ := takeGroup_zero t.endPos src le
          simp only [sumGroups, List.map_cons, List.map_nil, List.sum_cons, List.sum_nil]
          rw [hi, Nat.sub_self]
          omega
        | cons t2 ts2 =>
          have hrest := ih (i + 1) (takeGroup (lti - i) t.endPos src le).2.2
            (takeGroup (lti - i) t.endPos src le).2.1 rest
            (by simp at hinv ⊢; omega) (by simp) hrec
          have hsplit := takeGroup_split (lti - i) t.endPos src le
          simp only [sumGroups, List.map_cons, List.sum_cons] at hrest ⊢
          omega

/-- C4, amended: for every aligned source field whose target tier produced
at least one token, a successful alignment distributes the source tokens of
the field's tokenized value exactly (none dropped, none duplicated): the
total source-token count across the emitted groups equals the token count
of tokenizing the value alone. (When the target tokenizes to zero tokens,
the loop never runs and all source tokens are silently dropped, as the
counterexample shows.) -/
theorem collect_aligned_token_conservation (val : Chars) (tgt : List Tok)
    (e : String) (res : List (Chars × List Chars))
    (hne : tgt ≠ []) (h : collectAlignedTokens (tokenize val) tgt e = .ok res) :
    sumGroups res = (tokenize val).length := by
  have hlen : 0 + tgt.length = (tgt.length - 1) + 1 := by
    cases tgt with
    | nil => exact absurd rfl hne
    | cons a l => simp
  exact collectGo_conserves e (tgt.length - 1) tgt 0 (-1) (tokenize val) res hlen hne h

/-- C4 witness: a concrete successful alignment in which the two source
tokens of "a b" are all distributed (the last target absorbing the
leftovers). -/
theorem collect_aligned_token_conservation_wit :
    tokenize "xx yy".toList ≠ []
    ∧ sumGroups [("xx".toList, ["a".toList, "b".toList]), ("yy".toList, [])]
      = (tokenize "a b".toList).length :=
  ⟨by decide, collect_aligned_token_conservation "a b".toList (tokenize "xx yy".toList)
    "strict" [("xx".toList, ["a".toList, "b".toList]), ("yy".toList, [])] (by decide) rfl⟩

theorem joinAll_append (a b : List (List α)) :
    joinAll (a ++ b) = joinAll a ++ joinAll b := by
  induction a with
  | nil => rfl
  | cons x xs ih => simp [joinAll, ih]

theorem reconText_cons (p : TPair) (ps : List TPair) :
    reconText (p :: ps) = reconPair p ++ reconText ps := rfl

/-- A value capture on a well-formed tail (any newline final) returns the
tail itself. -/
theorem valCapture_wf (v cap : Chars) (h : valCapture v = some cap)
    (hwf : ('\n' : Char) ∉ v.dropLast) : cap = v := by
  simp only [valCapture] at h
  by_cases h1 : v.dropWhile (fun c => c != '\n') = []
  · rw [if_pos h1] at h
    exact (Option.some.inj h).symm
  · rw [if_neg h1] at h
    by_cases h2 : v.dropWhile (fun c => c != '\n') = ['\n']
    · rw [if_pos h2] at h
      exact (Option.some.inj h).symm
    · rw [if_neg h2] at h
      by_cases h3 : v.dropWhile (fun c => c != '\n') = ['\n', '\n']
      · exfalso
        apply hwf
        have hv : v = v.takeWhile (fun c => c != '\n') ++ ['\n', '\n'] := by
          conv_lhs => rw [← List.takeWhile_append_dropWhile (fun c => c != '\n') v]
          rw [h3]
        rw [hv, show (['\n', '\n'] : Chars) = ['\n'] ++ ['\n'] from rfl,
          ← List.append_assoc, List.dropLast_concat]
        exact List.mem_append_right _ (by simp)
      · rw [if_neg h3] at h
        exact absurd h (by simp)

/-- A matching line with a captured value is exactly the marker, the
separator space, and the value (for well-formed lines, where any newline is
final, the capture never truncates). -/
theorem matched_line_recon (l : Chars) (m v : Chars)
    (h : lineMatch l = some (m, some v)) (hwf : wfLine l = true) :
    l = m ++ ' ' :: v := by
  match l, h with
  | c :: rest, h =>
    simp only [lineMatch] at h
    by_cases hc : c = '\\'
    · rw [if_pos hc] at h
      subst hc
      by_cases hrun : rest.takeWhile (fun x => !(isWsChar x)) = []
      · rw [if_pos hrun] at h
        exact absurd h (by simp)
      · rw [if_neg hrun] at h
        by_cases hr1 : rest.dropWhile (fun x => !(isWsChar x)) = []
        · rw [if_pos hr1] at h
          exact absurd h (by simp)
        · rw [if_neg hr1] at h
          by_cases hr2 : rest.dropWhile (fun x => !(isWsChar x)) = ['\n']
          · rw [if_pos hr2] at h
            exact absurd h (by simp)
          · rw [if_neg hr2] at h
            by_cases hr3 : (rest.dropWhile (fun x => !(isWsChar x))).head? = some ' '
            · rw [if_pos hr3] at h
              simp only [Option.map_eq_some'] at h
              obtain ⟨cap, hcap, hmv⟩ := h
              have hm : m = '\\' :: rest.takeWhile (fun x => !(isWsChar x)) :=
                ((Prod.mk.injEq _ _ _ _).mp hmv).1.symm
              have hv : v = cap :=
                (Option.some.inj ((Prod.mk.injEq _ _ _ _).mp hmv).2).symm
              have hrem : rest.dropWhile (fun x => !(isWsChar x))
                  = ' ' :: (rest.dropWhile (fun x => !(isWsChar x))).tail := by
                cases hd : rest.dropWhile (fun x => !(isWsChar x)) with
                | nil => exact absurd hd hr1
                | cons a t =>
                  rw [hd] at hr3
                  simp only [List.head?_cons, Option.some.injEq] at hr3
                  rw [hr3]
                  simp
              have hrest : rest = rest.takeWhile (fun x => !(isWsChar x))
                  ++ ' ' :: (rest.dropWhile (fun x => !(isWsChar x))).tail := by
                conv_lhs => rw [← List.takeWhile_append_dropWhile
                  (fun x => !(isWsChar x)) rest]
                rw [← hrem]
              have hwf0 : ('\n' : Char)
                  ∉ ((rest.dropWhile (fun x => !(isWsChar x))).tail).dropLast := by
                intro hmem
                simp [wfLine, List.contains_eq_any_beq] at hwf
                apply hwf
                have : (('\\' :: rest : Chars)).dropLast
                    = ('\\' :: rest.takeWhile (fun x => !(isWsChar x)))
                      ++ (' ' :: (rest.dropWhile (fun x => !(isWsChar x))).tail).dropLast := by
                  conv_lhs => rw [show ('\\' :: rest : Chars)
                    = ('\\' :: rest.takeWhile (fun x => !(isWsChar x)))
                      ++ ' ' :: (rest.dropWhile (fun x => !(isWsChar x))).tail from by
                    conv_lhs => rw [hrest]
                    simp]
                  exact List.dropLast_append_cons
                rw [this]
                refine List.mem_append_right _ ?_
                cases ht : (rest.dropWhile (fun x => !(isWsChar x))).tail with
                | nil => rw [ht] at hmem; simp at hmem
                | cons a t =>
                  rw [ht] at hmem
                  rw [show ((' ' :: a :: t : Chars)).dropLast
                    = ' ' :: ((a :: t : Chars)).dropLast from rfl]
                  exact List.mem_cons_of_mem _ hmem
              have hcapv : cap = (rest.dropWhile (fun x => !(isWsChar x))).tail :=
                valCapture_wf _ _ hcap hwf0
              rw [hm, hv, hcapv]
              conv_lhs => rw [hrest]
              simp
            · rw [if_neg hr3] at h
              exact absurd h (by simp)
    · rw [if_neg hc] at h
      exact absurd h (by simp)

/-- makeVal on a segment list whose head is a present value joins the
segments (strip = False). -/
theorem makeVal_cons_some (v0 : Chars) (t : List (Option Chars)) :
    makeVal (some v0 :: t) false
      = some (joinAll ((some v0 :: t).map (fun s => s.getD []))) := by
  have hne : (some v0 :: t : List (Option Chars)) ≠ [none] := by
    intro h
    have := List.cons.injEq (some v0) t none [] ▸ h
    simp at this
  simp [makeVal, hne]

/-- Scan loop reconstruction: with a pending marker whose first segment is
present, the reconstructed emitted pairs reproduce the pending raw text
followed by the remaining lines, provided every remaining marker line
carries a value and lines are well formed. -/
theorem readToolboxGo_recon (lines : List Chars) :
    ∀ (m : Chars) (vls : List (Option Chars)) (v0 : Chars) (t : List (Option Chars)),
    vls = some v0 :: t →
    (∀ l ∈ lines, valuedLine l = true) →
    (∀ l ∈ lines, wfLine l = true) →
    reconText (readToolboxGo false lines m vls)
      = (m ++ ' ' :: joinAll (vls.map (fun s => s.getD []))) ++ joinAll lines := by
  induction lines with
  | nil =>
    intro m vls v0 t hv _ _
    subst hv
    rw [show readToolboxGo false [] m (some v0 :: t) =
      [(m, makeVal (some v0 :: t) false)] from rfl]
    rw [makeVal_cons_some]
    simp [reconText, reconPair, joinAll]
  | cons line rest ih =>
    intro m vls v0 t hv hval hwf
    subst hv
    cases hm : lineMatch line with
    | none =>
      rw [show readToolboxGo false (line :: rest) m (some v0 :: t)
          = readToolboxGo false rest m ((some v0 :: t) ++ [some line]) from by
        simp [readToolboxGo, hm]]
      rw [ih m ((some v0 :: t) ++ [some line]) v0 (t ++ [some line]) (by simp)
        (fun l hl => hval l (List.mem_cons_of_mem _ hl))
        (fun l hl => hwf l (List.mem_cons_of_mem _ hl))]
      rw [List.map_append, joinAll_append]
      simp [joinAll]
    | some mv =>
      obtain ⟨mk, vv⟩ := mv
      cases vv with
      | none =>
        exfalso
        have := hval line (List.mem_cons_self _ _)
        rw [valuedLine, hm] at this
        simp at this
      | some v1 =>
        have hline := matched_line_recon line mk v1 hm (hwf line (List.mem_cons_self _ _))
        rw [show readToolboxGo false (line :: rest) m (some v0 :: t)
            = (m, makeVal (some v0 :: t) false) :: readToolboxGo false rest mk [some v1]
          from by simp [readToolboxGo, hm]]
        rw [reconText_cons, makeVal_cons_some]
        rw [ih mk [some v1] v1 [] rfl
          (fun l hl => hval l (List.mem_cons_of_mem _ hl))
          (fun l hl => hwf l (List.mem_cons_of_mem _ hl))]
        rw [show joinAll (line :: rest) = line ++ joinAll rest from rfl, hline]
        simp [reconPair, joinAll]

/-- C6, amended: for well-formed inputs whose first line is a marker line
and in which every marker line carries a separator and value (no valueless
marker lines), concatenating each emitted pair's reconstruction (marker,
separator, value — continuation lines live verbatim inside the value)
reproduces the original text byte for byte under strip=False. (A valueless
marker line breaks this, as the counterexample shows, because its line
terminator is lost and a spurious separator is introduced.) -/
theorem read_toolbox_roundtrip (first : Chars) (rest : List Chars) (m v : Chars)
    (hfirst : lineMatch first = some (m, some v))
    (hval : ∀ l ∈ rest, valuedLine l = true)
    (hwf : ∀ l ∈ first :: rest, wfLine l = true) :
    reconText (readToolboxFile (first :: rest) false) = joinAll (first :: rest) := by
  rw [show readToolboxFile (first :: rest) false = readToolboxGo false rest m [some v]
    from by simp [readToolboxFile, readToolboxStart, hfirst]]
  rw [readToolboxGo_recon rest m [some v] v [] rfl hval
    (fun l hl => hwf l (List.mem_cons_of_mem _ hl))]
  rw [show joinAll (first :: rest) = first ++ joinAll rest from rfl,
    matched_line_recon first m v hfirst (hwf first (List.mem_cons_self _ _))]
  simp [joinAll]

/-- C6 witness: the round trip at a concrete three-line input with a
continuation line and an unterminated final line. -/
theorem read_toolbox_roundtrip_wit :
    reconText (readToolboxFile ["\\m a\n".toList, "b\n".toList, "\\x c".toList] false)
      = joinAll ["\\m a\n".toList, "b\n".toList, "\\x c".toList] :=
  read_toolbox_roundtrip "\\m a\n".toList ["b\n".toList, "\\x c".toList]
    "\\m".toList "a\n".toList (by decide) (by decide) (by decide)

theorem fdKeys_append_one (fd : List (Chars × List Chars)) (m : Chars) (d : List Chars) :
    fdKeys (fd ++ [(m, d)]) = fdKeys fd ++ [m] := by
  simp [fdKeys]

theorem fdKeys_fdAppend_of_mem (fd : List (Chars × List Chars)) (m : Chars) (v : Chars)
    (hm : m ∈ fdKeys fd) : fdKeys (fdAppend fd m v) = fdKeys fd := by
  induction fd with
  | nil => simp [fdKeys] at hm
  | cons p rest ih =>
    obtain ⟨k0, d0⟩ := p
    by_cases h : k0 = m
    · subst h
      simp [fdAppend, fdKeys]
    · simp only [fdKeys, List.map_cons, List.mem_cons] at hm
      rcases hm with h1 | h2
      · exact absurd h1.symm h
      · have hih := ih h2
        simp only [fdKeys] at hih
        simp [fdAppend, h, fdKeys, hih]

/-- Keys of the state after one gathering step: the pair's marker is
appended exactly when it was not yet registered. -/
theorem normStep_keys (af : List Chars) (st : NormSt) (p : TPair) :
    fdKeys (normStep af st p).fd
      = if p.1 ∈ fdKeys st.fd then fdKeys st.fd else fdKeys st.fd ++ [p.1] := by
  obtain ⟨m, val⟩ := p
  by_cases hmem : m ∈ fdKeys st.fd
  · rw [if_pos hmem]
    cases val with
    | none => simp [normStep, hmem]
    | some v =>
      simp only [normStep, if_pos hmem]
      rw [apply_ite NormSt.fd]
      simp [fdKeys_fdAppend_of_mem st.fd m v hmem]
  · rw [if_neg hmem]
    cases val with
    | none => simp [normStep, hmem, fdKeys_append_one]
    | some v =>
      simp only [normStep, if_neg hmem]
      rw [apply_ite NormSt.fd]
      have hm2 : m ∈ fdKeys (st.fd ++ [(m, [])]) := by
        rw [fdKeys_append_one]
        exact List.mem_append_right _ (by simp)
      simp [fdKeys_fdAppend_of_mem _ m v hm2, fdKeys_append_one]

/-- A (marker, None) pair whose marker is already registered leaves the
gathering state unchanged (the None value is skipped entirely). -/
theorem normStep_none_mem (af : List Chars) (st : NormSt) (m : Chars)
    (hm : m ∈ fdKeys st.fd) : normStep af st (m, none) = st := by
  simp [normStep, hm]

theorem foldl_normStep_keys_mono (af : List Chars) (l : List TPair) :
    ∀ (st : NormSt) (m : Chars), m ∈ fdKeys st.fd →
    m ∈ fdKeys (l.foldl (normStep af) st).fd := by
  induction l with
  | nil => intro st m hm; exact hm
  | cons p rest ih =>
    intro st m hm
    rw [List.foldl_cons]
    apply ih
    rw [normStep_keys]
    split
    · exact hm
    · exact List.mem_append_left _ hm

theorem foldl_normStep_registers (af : List Chars) (l : List TPair) :
    ∀ (st : NormSt) (m : Chars), m ∈ l.map Prod.fst →
    m ∈ fdKeys (l.foldl (normStep af) st).fd := by
  induction l with
  | nil => intro st m hm; simp at hm
  | cons p rest ih =>
    intro st m hm
    simp only [List.map_cons, List.mem_cons] at hm
    rw [List.foldl_cons]
    rcases hm with h1 | h2
    · subst h1
      apply foldl_normStep_keys_mono
      rw [normStep_keys]
      split
      · assumption
      · exact List.mem_append_right _ (by simp)
    · exact ih _ m h2

/-- C7, amended: the source skips None occurrences entirely: a (marker,
None) pair whose marker already occurred earlier contributes nothing — no
value, no positional slot, no padding index — so inserting or removing it
anywhere after the marker's first occurrence leaves the normalized output
unchanged (later non-None occurrences shift into the next filtered slot
rather than keeping their raw positional slot). -/
theorem normalize_record_none_skipped (xs ys : List TPair) (m : Chars)
    (af : List Chars) (strip : Bool) (hm : m ∈ xs.map Prod.fst) :
    normalizeRecord (xs ++ (m, none) :: ys) af strip
      = normalizeRecord (xs ++ ys) af strip := by
  have hfold : (xs ++ (m, none) :: ys).foldl (normStep af) ⟨[], []⟩
      = (xs ++ ys).foldl (normStep af) ⟨[], []⟩ := by
    rw [List.foldl_append, List.foldl_append, List.foldl_cons,
      normStep_none_mem af _ m (foldl_normStep_registers af xs ⟨[], []⟩ m hm)]
  simp only [normalizeRecord]
  rw [hfold]

/-- C7 amended witness: dropping a later (marker, None) occurrence at a
concrete input. -/
theorem normalize_record_none_skipped_wit :
    ("\\t".toList ∈ ([("\\t".toList, some "a".toList)] : List TPair).map Prod.fst)
    ∧ normalizeRecord ([("\\t".toList, some "a".toList)]
        ++ ("\\t".toList, none) :: [("\\m".toList, some "bb".toList)])
        ["\\t".toList] true
      = normalizeRecord ([("\\t".toList, some "a".toList)]
        ++ [("\\m".toList, some "bb".toList)]) ["\\t".toList] true :=
  ⟨by decide, normalize_record_none_skipped [("\\t".toList, some "a".toList)]
    [("\\m".toList, some "bb".toList)] "\\t".toList ["\\t".toList] true (by decide)⟩

theorem dropWhile_idem (p : α → Bool) (l : List α) :
    (l.dropWhile p).dropWhile p = l.dropWhile p := by
  induction l with
  | nil => rfl
  | cons a t ih =>
    by_cases h : p a = true
    · simp [List.dropWhile_cons, h, ih]
    · simp [List.dropWhile_cons, h]

theorem rstripL_idem (x : Chars) : rstripL (rstripL x) = rstripL x := by
  simp only [rstripL, List.reverse_reverse]
  rw [dropWhile_idem]

theorem rstripL_append_spaces (x : Chars) (k : Nat) :
    rstripL (x ++ List.replicate k ' ') = rstripL x := by
  simp only [rstripL, List.reverse_append, List.reverse_replicate]
  congr 1
  induction k with
  | zero => simp
  | succ n ih =>
    rw [List.replicate_succ, List.cons_append, List.dropWhile_cons]
    simp only [show isWsChar ' ' = true from rfl, if_true]
    exact ih

theorem rstripL_ljust (x : Chars) (n : Nat) : rstripL (ljust x n) = rstripL x :=
  rstripL_append_spaces x _

theorem fdAppend_last (fd : List (Chars × List Chars)) (m : Chars) (d : List Chars)
    (v : Chars) (hm : m ∉ fdKeys fd) :
    fdAppend (fd ++ [(m, d)]) m v = fd ++ [(m, d ++ [v])] := by
  induction fd with
  | nil => simp [fdAppend]
  | cons p rest ih =>
    obtain ⟨k0, d0⟩ := p
    simp only [fdKeys, List.map_cons, List.mem_cons, not_or] at hm
    have hne : k0 ≠ m := fun e => hm.1 e.symm
    simp only [List.cons_append, fdAppend, if_neg hne, List.append_eq]
    rw [ih hm.2]

/-- Gathering a duplicate-free pair list from a state that contains none of
its markers appends one entry per pair, holding the pair's value (if any)
as a one-element list. -/
theorem foldl_normStep_fd_nodup (af : List Chars) :
    ∀ (l : List TPair) (st : NormSt),
    (∀ q ∈ l, q.1 ∉ fdKeys st.fd) → (l.map Prod.fst).Nodup →
    (l.foldl (normStep af) st).fd = st.fd ++ l.map (fun q => (q.1, q.2.toList)) := by
  intro l
  induction l with
  | nil => intro st _ _; simp
  | cons p rest ih =>
    intro st hdisj hnd
    obtain ⟨m, val⟩ := p
    have hm : m ∉ fdKeys st.fd := hdisj (m, val) (List.mem_cons_self _ _)
    simp only [List.map_cons, List.nodup_cons] at hnd
    have hstep : (normStep af st (m, val)).fd = st.fd ++ [(m, val.toList)] := by
      cases val with
      | none => simp [normStep, hm]
      | some v =>
        simp only [normStep, if_neg hm]
        rw [apply_ite NormSt.fd]
        simp only [ite_self]
        rw [fdAppend_last st.fd m [] v hm]
        rfl
    rw [List.foldl_cons, ih (normStep af st (m, val)) ?hdisj2 hnd.2, hstep]
    · simp
    case hdisj2 =>
      intro q hq
      rw [show (normStep af st (m, val)).fd = st.fd ++ [(m, val.toList)] from hstep,
        fdKeys_append_one]
      intro hmem
      rcases List.mem_append.mp hmem with h1 | h2
      · exact hdisj q (List.mem_cons_of_mem _ hq) h1
      · simp only [List.mem_singleton] at h2
        exact hnd.1 (h2 ▸ List.mem_map_of_mem Prod.fst hq)

/-- Joining a single already-stripped value returns it unchanged, whatever
padding width applies (the strip pass removes the added spaces). -/
theorem joinField_single (af : List Chars) (ml : List (Nat × Nat)) (m : Chars)
    (v : Chars) (hv : rstripL v = v) :
    joinField af true ml m [v] = some v := by
  simp only [joinField]
  rw [if_neg (show ([v] : List Chars) ≠ [] by simp)]
  by_cases hm : m ∈ af
  · rw [if_pos hm]
    simp [List.enum, List.enumFrom, joinSp, rstripL_ljust, hv]
  · rw [if_neg hm]
    simp [joinSp, hv]

/-- Joining back a gathered duplicate-free single-valued field list returns
the original pairs when the present values are already stripped. -/
theorem map_join_id (af : List Chars) (ml : List (Nat × Nat)) (l : List TPair)
    (hstrip : ∀ p ∈ l, ∀ v, p.2 = some v → rstripL v = v) :
    (l.map (fun q => (q.1, q.2.toList))).map
      (fun q => (q.1, joinField af true ml q.1 q.2)) = l := by
  induction l with
  | nil => rfl
  | cons p rest ih =>
    simp only [List.map_cons]
    rw [ih (fun q hq => hstrip q (List.mem_cons_of_mem _ hq))]
    obtain ⟨m, val⟩ := p
    cases val with
    | none => simp [joinField]
    | some v =>
      simp only [Option.toList_some]
      rw [joinField_single af ml m v (hstrip (m, some v) (List.mem_cons_self _ _) v rfl)]

/-- normalize_record is the identity on duplicate-free single-valued pair
lists whose present values carry no trailing whitespace. -/
theorem normalizeRecord_fixed (af : List Chars) (l : List TPair)
    (hnd : (l.map Prod.fst).Nodup)
    (hstrip : ∀ p ∈ l, ∀ v, p.2 = some v → rstripL v = v) :
    normalizeRecord l af true = l := by
  simp only [normalizeRecord]
  rw [foldl_normStep_fd_nodup af l ⟨[], []⟩ (by intro q _ hq; simp [fdKeys] at hq) hnd]
  rw [show (⟨[], []⟩ : NormSt).fd = [] from rfl, List.nil_append]
  exact map_join_id af _ l hstrip

theorem nodup_append_one {α : Type} (l : List α) (a : α) (h : l.Nodup) (ha : a ∉ l) :
    (l ++ [a]).Nodup := by
  induction l with
  | nil => simp
  | cons x t ih =>
    rw [List.cons_append, List.nodup_cons]
    rw [List.nodup_cons] at h
    refine ⟨?_, ih h.2 (fun hm => ha (List.mem_cons_of_mem _ hm))⟩
    intro hx
    rcases List.mem_append.mp hx with h1 | h2
    · exact h.1 h1
    · simp only [List.mem_singleton] at h2
      exact ha (h2 ▸ List.mem_cons_self _ _)

theorem foldl_normStep_keys_nodup (af : List Chars) (l : List TPair) :
    ∀ st : NormSt, (fdKeys st.fd).Nodup →
    (fdKeys (l.foldl (normStep af) st).fd).Nodup := by
  induction l with
  | nil => intro st h; exact h
  | cons p rest ih =>
    intro st h
    rw [List.foldl_cons]
    apply ih
    rw [normStep_keys]
    split
    · exact h
    · exact nodup_append_one _ _ h (by assumption)

/-- The output markers of normalize_record are duplicate-free (field_data is
a dict). -/
theorem normalizeRecord_markers_nodup (pairs : List TPair) (af : List Chars)
    (strip : Bool) : ((normalizeRecord pairs af strip).map Prod.fst).Nodup := by
  simp only [normalizeRecord, List.map_map]
  rw [List.map_congr_left
    (show ∀ p ∈ (pairs.foldl (normStep af) ⟨[], []⟩).fd,
      (Prod.fst ∘ fun q => ((q : Chars × List Chars).1,
        joinField af strip (pairs.foldl (normStep af) ⟨[], []⟩).ml q.1 q.2)) p
        = Prod.fst p from fun p _ => rfl)]
  exact foldl_normStep_keys_nodup af pairs ⟨[], []⟩ (by simp [fdKeys])

/-- Every present value in a strip=True normalize_record output is
right-stripped. -/
theorem normalizeRecord_vals_rstripped (pairs : List TPair) (af : List Chars) :
    ∀ p ∈ normalizeRecord pairs af true, ∀ v, p.2 = some v → rstripL v = v := by
  intro p hp v hv
  simp only [normalizeRecord, List.mem_map] at hp
  obtain ⟨q, hq, he⟩ := hp
  rw [← he] at hv
  simp only [joinField] at hv
  by_cases hd : q.2 = []
  · rw [if_pos hd] at hv
    exact absurd hv (by simp)
  · rw [if_neg hd] at hv
    simp only [if_true, Option.some.injEq] at hv
    rw [← hv, rstripL_idem]

/-- C9: normalize_record is idempotent on its own output: each marker
appears once there, every present value is already stripped, and the strip
pass erases any re-padding, so a second normalization returns the list
unchanged. -/
theorem normalize_record_idempotent (pairs : List TPair) (af : List Chars) :
    normalizeRecord (normalizeRecord pairs af true) af true
      = normalizeRecord pairs af true :=
  normalizeRecord_fixed af _ (normalizeRecord_markers_nodup pairs af true)
    (normalizeRecord_vals_rstripped pairs af)

end Toolbox
